import Mathlib

/-!
# pvector (GAP Benchmark Suite, `src/src/pvector.h`)

A shallow embedding of the `pvector<T_>` class template and proofs about it.

Conventions of the embedding

* `size_t` is a natural number; the two places where the source computes with
  it (`capacity() * growth_factor` and `elements_++`) reduce modulo `2 ^ 64`.
* A member function that can run into undefined behaviour (a null pointer
  dereference, an index outside an array, an offset outside an allocation)
  returns `Option`; `none` stands for undefined behaviour.
* `#pragma omp parallel for` loops run their body once per index; the embedding
  runs them in ascending index order.
* The header uses `Array<T_>` and `ArrayIter<T_>` without declaring them (its
  include line is commented out).  `Arr` models the former from the
  specification; what the header needs beyond that is the parameter `ArrayOps`.
-/

universe u

/-- Modulus of `size_t` arithmetic (64-bit). -/
def SIZE_T_MOD : Nat := 2 ^ 64

/-- Modelled from the spec: the class `Array<T_>`, which the header uses and does
not declare (the spec's `UninitializedBuffer<T>`): a block with a fixed number of
slots, made with a requested slot count and with no slot initialised, and with
indexed read and write access. A slot is `none` while it is uninitialised. -/
structure Arr (T : Type u) where
  slots : List (Option T)
deriving DecidableEq, Repr

namespace Arr

variable {T : Type u}

/-- The slot count of the block. -/
def count (a : Arr T) : Nat := a.slots.length

/-- Modelled from the spec: `Array<T_>(n)`, a block of `n` uninitialised slots. -/
def alloc (n : Nat) : Arr T := ⟨List.replicate n none⟩

/-- Modelled from the spec: reading `a[i]`. The result is `none` when `i` is not
a slot of the block or the slot is uninitialised. -/
def get (a : Arr T) (i : Nat) : Option T := a.slots[i]?.join

/-- Modelled from the spec: the write `a[i] = v`. Undefined (`none`) when `i` is
not a slot of the block. -/
def put (a : Arr T) (i : Nat) (v : T) : Option (Arr T) :=
  if i < a.slots.length then some ⟨a.slots.set i (some v)⟩ else none

end Arr

/-- The operations of the undeclared class `Array<T_>` that the header applies to
whole `Array<T_>` objects. Nothing in the repository fixes what they do, so they
are parameters; `none` is an assignment without a defined result.

* `assign dst src` is the value of `dst` after `dst = src` for two `Array<T_>`
  objects (line 78).
* `assign_val dst x` is the value of `dst` after `dst = x` for an `Array<T_>`
  object `dst` and an element `x` read through an `ArrayIter<T_>` (line 42). -/
structure ArrayOps (T : Type u) where
  assign : Arr T → Arr T → Option (Arr T)
  assign_val : Arr T → T → Option (Arr T)

/-- An assumption on the parameters: assigning to an `Array<T_>` object does not
give it more slots than the larger of the two operands has. -/
def ArrayOps.NoGrow {T : Type u} (ops : ArrayOps T) : Prop :=
  (∀ d s r : Arr T, ops.assign d s = some r → r.count ≤ max d.count s.count) ∧
  (∀ (d : Arr T) (x : T) (r : Arr T), ops.assign_val d x = some r → r.count ≤ d.count)

/-- An instance of the parameters: `dst = src` copies the slots that both blocks
have and keeps the slot count of `dst`; `dst = x` leaves `dst` as it is. -/
def ArrayOps.slotwise (T : Type u) : ArrayOps T :=
  ⟨fun d s => some ⟨s.slots.take d.slots.length ++ d.slots.drop s.slots.length⟩,
   fun d _ => some d⟩

/-- The built-in subscript `p[i]`, that is `*(p + i)`, on a pointer `p` of type
`Array<T_>*`. Every such pointer in the header is null or comes from
`new Array<T_>(n)`, which creates one `Array<T_>` object; offset `0` is that
object and no other offset designates an object. -/
def ptr_index {T : Type u} (p : Option (Arr T)) (i : Nat) : Option (Arr T) :=
  if i = 0 then p else none

/-- The loop `for (size_t i = 0; i < n; i++) body(i)` over a state, in ascending
index order; it is undefined as soon as one iteration is. -/
def for_range {σ : Type u} (body : Nat → σ → Option σ) : Nat → σ → Option σ
  | 0, s => some s
  | k + 1, s => (for_range body k s).bind (body k)

/-- The data members of `pvector<T_>` (lines 152-154): `arr_` is a pointer to one
heap `Array<T_>` object, `none` for `nullptr`. -/
structure pvector (T : Type u) where
  arr_ : Option (Arr T)
  elements_ : Nat
  capacity_ : Nat
deriving DecidableEq, Repr

namespace pvector

variable {T : Type u}

/-- `static const size_t growth_factor = 2;` (line 155). -/
def growth_factor : Nat := 2

/-- `size_t capacity() const` (lines 121-123). -/
def capacity (s : pvector T) : Nat := s.capacity_

/-- `size_t size() const` (lines 125-127). -/
def size (s : pvector T) : Nat := s.elements_

/-- `pvector()` (line 26). -/
def new : pvector T := ⟨none, 0, 0⟩

/-- `explicit pvector(size_t num_elements)` (lines 28-32). -/
def sized (num_elements : Nat) : pvector T :=
  ⟨some (Arr.alloc num_elements), num_elements, num_elements⟩

/-- The write `(*arr_)[n] = val` used by `push_back` and `fill`: undefined on a
null `arr_` and on an index outside the array. -/
def store (s : pvector T) (n : Nat) (val : T) : Option (pvector T) :=
  (s.arr_.bind (fun a => a.put n val)).map
    (fun a => ⟨some a, s.elements_, s.capacity_⟩)

/-- `operator[]` used as a read, `(*arr_)[n]` (lines 98-104): `none` when `arr_`
is null, `n` is outside the array, or the slot is uninitialised. -/
def index (s : pvector T) (n : Nat) : Option T :=
  s.arr_.bind (fun a => a.get n)

/-- The content of slot `n` of the storage, initialised or not: `none` when
`arr_` is null or `n` is outside the array, `some none` for an uninitialised
slot. -/
def slot (s : pvector T) (n : Nat) : Option (Option T) :=
  s.arr_.bind (fun a => a.slots[n]?)

/-- `void fill(T_ init_val)` (lines 115-119). -/
def fill (s : pvector T) (init_val : T) : Option (pvector T) :=
  for_range (fun i st => st.store i init_val) s.elements_ s

/-- `pvector(size_t num_elements, T_ init_val)` (lines 34-36). -/
def sized_val (num_elements : Nat) (init_val : T) : Option (pvector T) :=
  (sized num_elements).fill init_val

/-- `pvector(iterator copy_begin, iterator copy_end)` (lines 38-43). The range
`[copy_begin, copy_end)` is the list `src` of the elements it spans:
`copy_end - copy_begin` is its length and `copy_begin[i]` its `i`-th element.
The loop body `arr_[i] = copy_begin[i]` subscripts the pointer `arr_`. -/
def from_range (ops : ArrayOps T) (src : List T) : Option (pvector T) :=
  let s : pvector T := sized src.length
  for_range
    (fun i st =>
      (ptr_index st.arr_ i).bind (fun dst =>
        src[i]?.bind (fun x =>
          (ops.assign_val dst x).map (fun a =>
            ⟨some a, st.elements_, st.capacity_⟩))))
    s.capacity s

/-- `pvector(pvector &&other)` (lines 49-54): the constructed vector and `other`
after the call. -/
def move_ctor (other : pvector T) : pvector T × pvector T :=
  (⟨other.arr_, other.elements_, other.capacity_⟩, ⟨none, 0, 0⟩)

/-- `pvector& operator= (pvector &&other)` (lines 57-65) on two distinct objects:
`*this` and `other` after the call. -/
def move_assign (_this other : pvector T) : pvector T × pvector T :=
  (⟨other.arr_, other.elements_, other.capacity_⟩, ⟨none, 0, 0⟩)

/-- `void reserve(size_t num_elements)` (lines 73-84). `new_range` and `arr_` are
both of type `Array<T_>*`, so the loop body `new_range[i] = arr_[i]` subscripts
the two pointers and assigns one `Array<T_>` object to another. -/
def reserve (ops : ArrayOps T) (s : pvector T) (num_elements : Nat) :
    Option (pvector T) :=
  if num_elements > s.capacity then
    let new_range : Option (Arr T) := some (Arr.alloc num_elements)
    (for_range
      (fun i nr =>
        (ptr_index nr i).bind (fun dst =>
          (ptr_index s.arr_ i).bind (fun src =>
            (ops.assign dst src).map some)))
      s.size new_range).map
      (fun nr => ⟨nr, s.elements_, num_elements⟩)
  else some s

/-- `bool empty()` (lines 86-88), `return elements_ = 0;`: the assignment stores
`0` in `elements_`, and its value, the new `elements_`, is converted to `bool`.
The result is the returned value and the vector after the call. -/
def empty (s : pvector T) : Bool × pvector T :=
  let s1 : pvector T := ⟨s.arr_, 0, s.capacity_⟩
  (s1.elements_ != 0, s1)

/-- `void clear()` (lines 90-92). -/
def clear (s : pvector T) : pvector T := ⟨s.arr_, 0, s.capacity_⟩

/-- `void resize(size_t num_elements)` (lines 94-96). -/
def resize (ops : ArrayOps T) (s : pvector T) (num_elements : Nat) :
    Option (pvector T) :=
  s.reserve ops num_elements

/-- `void push_back(T_ val)` (lines 106-113). -/
def push_back (ops : ArrayOps T) (s : pvector T) (val : T) : Option (pvector T) :=
  let grown : Option (pvector T) :=
    if s.size = s.capacity then
      let new_size : Nat :=
        if s.capacity = 0 then 1 else (s.capacity * growth_factor) % SIZE_T_MOD
      s.reserve ops new_size
    else some s
  grown.bind (fun s1 =>
    (s1.store s1.elements_ val).map (fun s2 =>
      ⟨s2.arr_, (s2.elements_ + 1) % SIZE_T_MOD, s2.capacity_⟩))

/-- `void swap(pvector &other)` (lines 144-148): `*this` and `other` after the
call. -/
def swap (s other : pvector T) : pvector T × pvector T :=
  (⟨other.arr_, other.elements_, other.capacity_⟩,
   ⟨s.arr_, s.elements_, s.capacity_⟩)

/-- The calls `push_back(x_0)`, ..., `push_back(x_(k-1))` in order. -/
def push_all (ops : ArrayOps T) (s : pvector T) : List T → Option (pvector T)
  | [] => some s
  | x :: xs => (s.push_back ops x).bind (fun s1 => push_all ops s1 xs)

end pvector

namespace pvector

variable {T : Type u}

/-- The class invariant of a vector state: the live elements fit the capacity,
and the storage is null with capacity `0` or a block of exactly `capacity()`
slots. -/
def Valid (s : pvector T) : Prop :=
  s.elements_ ≤ s.capacity_ ∧
  s.capacity_ = (match s.arr_ with
    | none => 0
    | some a => a.count)

instance (s : pvector T) : Decidable s.Valid := by
  unfold Valid; exact inferInstance

/-- The live elements fit the capacity, and the storage has no more slots than
the capacity. -/
def Bounded (s : pvector T) : Prop :=
  s.elements_ ≤ s.capacity_ ∧ ∀ a, s.arr_ = some a → a.count ≤ s.capacity_

/-- Null storage goes with capacity `0`; the converse is only asked for when
`zero_ok = false`. -/
def NullInv (zero_ok : Bool) (s : pvector T) : Prop :=
  (s.arr_ = none → s.capacity_ = 0) ∧
  (zero_ok = false → s.capacity_ = 0 → s.arr_ = none)

/-- The states a program can reach through the public interface: the results of
the constructors and of every member function applied to reachable states, where
the call is defined. With `zero_ok = false` the sized constructors are only
called with a positive element count and the range constructor only on a
non-empty range. -/
inductive Reachable (ops : ArrayOps T) (zero_ok : Bool) : pvector T → Prop
  | new : Reachable ops zero_ok pvector.new
  | sized (n : Nat) : (zero_ok = true ∨ 0 < n) → Reachable ops zero_ok (sized n)
  | sized_val (n : Nat) (v : T) (s : pvector T) : (zero_ok = true ∨ 0 < n) →
      sized_val n v = some s → Reachable ops zero_ok s
  | from_range (src : List T) (s : pvector T) : (zero_ok = true ∨ 0 < src.length) →
      from_range ops src = some s → Reachable ops zero_ok s
  | move_ctor_new (o : pvector T) : Reachable ops zero_ok o →
      Reachable ops zero_ok (move_ctor o).1
  | move_ctor_other (o : pvector T) : Reachable ops zero_ok o →
      Reachable ops zero_ok (move_ctor o).2
  | move_assign_this (s o : pvector T) : Reachable ops zero_ok s →
      Reachable ops zero_ok o → Reachable ops zero_ok (move_assign s o).1
  | move_assign_other (s o : pvector T) : Reachable ops zero_ok s →
      Reachable ops zero_ok o → Reachable ops zero_ok (move_assign s o).2
  | reserve (s : pvector T) (n : Nat) (s1 : pvector T) : Reachable ops zero_ok s →
      s.reserve ops n = some s1 → Reachable ops zero_ok s1
  | resize (s : pvector T) (n : Nat) (s1 : pvector T) : Reachable ops zero_ok s →
      s.resize ops n = some s1 → Reachable ops zero_ok s1
  | push_back (s : pvector T) (v : T) (s1 : pvector T) : Reachable ops zero_ok s →
      s.push_back ops v = some s1 → Reachable ops zero_ok s1
  | fill (s : pvector T) (v : T) (s1 : pvector T) : Reachable ops zero_ok s →
      s.fill v = some s1 → Reachable ops zero_ok s1
  | clear (s : pvector T) : Reachable ops zero_ok s → Reachable ops zero_ok s.clear
  | empty (s : pvector T) : Reachable ops zero_ok s → Reachable ops zero_ok s.empty.2
  | swap_this (s o : pvector T) : Reachable ops zero_ok s →
      Reachable ops zero_ok o → Reachable ops zero_ok (s.swap o).1
  | swap_other (s o : pvector T) : Reachable ops zero_ok s →
      Reachable ops zero_ok o → Reachable ops zero_ok (s.swap o).2

end pvector

/-! ## Iterators, the growth step and loops in a given index order -/

/-- An assumption on the parameters: `dst = src` on two `Array<T_>` objects
copies slots, that is every slot of the result holds what the same slot of `src`
or the same slot of `dst` held. -/
def ArrayOps.AssignCopies {T : Type u} (ops : ArrayOps T) : Prop :=
  ∀ d s r : Arr T, ops.assign d s = some r →
    ∀ i : Nat, r.slots[i]? = s.slots[i]? ∨ r.slots[i]? = d.slots[i]?

/-- Modelled from the spec: the class `ArrayIter<T_>`, which the header uses and
does not declare: a random-access iterator over an `Array<T_>`, given by the
array it walks (a pointer, `none` for `nullptr`) and a position in it. -/
structure ArrayIter (T : Type u) where
  arr : Option (Arr T)
  pos : Nat
deriving DecidableEq, Repr

namespace ArrayIter

variable {T : Type u}

/-- Modelled from the spec: `iterator(arr_)`, the iterator at the first slot of
the array. -/
def at_start (p : Option (Arr T)) : ArrayIter T := ⟨p, 0⟩

/-- Modelled from the spec: `it += k`, the iterator `k` positions further. -/
def advance (it : ArrayIter T) (k : Nat) : ArrayIter T := ⟨it.arr, it.pos + k⟩

/-- Modelled from the spec: `a - b`, the distance from `b` to `a`. -/
def distance (a b : ArrayIter T) : Int := (a.pos : Int) - (b.pos : Int)

/-- Modelled from the spec: `*it`, the element the iterator refers to; `none`
when the array is null, the position is outside it or the slot is
uninitialised. -/
def deref (it : ArrayIter T) : Option T := it.arr.bind (fun a => a.get it.pos)

end ArrayIter

namespace pvector

variable {T : Type u}

/-- `iterator begin() const` (lines 129-131). -/
def begin (s : pvector T) : ArrayIter T := ArrayIter.at_start s.arr_

/-- `iterator end() const` (lines 133-137). -/
def end_ (s : pvector T) : ArrayIter T :=
  let tmp : ArrayIter T := ArrayIter.at_start s.arr_
  tmp.advance s.elements_

/-- The growth step of `push_back` (lines 107-110): the vector when the write of
line 111 is reached. -/
def grow (ops : ArrayOps T) (s : pvector T) : Option (pvector T) :=
  if s.size = s.capacity then
    let new_size : Nat :=
      if s.capacity = 0 then 1 else (s.capacity * growth_factor) % SIZE_T_MOD
    s.reserve ops new_size
  else some s

end pvector

/-! ## Lemmas on loops, stores and reserve -/

section lemmas

variable {T : Type u}

theorem for_range_preserves {σ : Type u} (body : Nat → σ → Option σ) (P : σ → Prop)
    (hbody : ∀ i st st1, P st → body i st = some st1 → P st1) :
    ∀ (k : Nat) (s s1 : σ), P s → for_range body k s = some s1 → P s1 := by
  intro k
  induction k with
  | zero =>
    intro s s1 hs h
    simp [for_range] at h
    exact h ▸ hs
  | succ k ih =>
    intro s s1 hs h
    rw [for_range] at h
    cases hk : for_range body k s with
    | none => rw [hk] at h; simp at h
    | some st =>
      rw [hk] at h
      exact hbody k st s1 (ih s st hs hk) h

theorem for_range_undefined {σ : Type u} (body : Nat → σ → Option σ) (k : Nat) (s : σ)
    (hk : ∀ st, body k st = none) : for_range body (k + 1) s = none := by
  simp only [for_range]
  cases for_range body k s with
  | none => rfl
  | some st => exact hk st

theorem ptr_index_eq_some {p : Option (Arr T)} {i : Nat} {a : Arr T}
    (h : ptr_index p i = some a) : p = some a := by
  unfold ptr_index at h
  split at h
  · exact h
  · exact absurd h (by simp)

theorem pvector.store_eq_some {s s1 : pvector T} {n : Nat} {v : T}
    (h : s.store n v = some s1) :
    ∃ a, s.arr_ = some a ∧ n < a.count ∧
      s1 = ⟨some ⟨a.slots.set n (some v)⟩, s.elements_, s.capacity_⟩ := by
  unfold pvector.store at h
  cases ha : s.arr_ with
  | none => rw [ha] at h; simp at h
  | some a =>
    rw [ha] at h
    by_cases hn : n < a.slots.length
    · simp [Arr.put, hn] at h
      exact ⟨a, rfl, hn, h.symm⟩
    · simp [Arr.put, hn] at h

theorem pvector.store_of_lt (a : Arr T) (e c n : Nat) (v : T) (hn : n < a.count) :
    (⟨some a, e, c⟩ : pvector T).store n v =
      some ⟨some ⟨a.slots.set n (some v)⟩, e, c⟩ := by
  unfold Arr.count at hn
  simp [pvector.store, Arr.put, hn]

theorem pvector.reserve_eq_some {ops : ArrayOps T} {s s1 : pvector T} {n : Nat}
    (h : s.reserve ops n = some s1) :
    s1 = s ∨ (s.capacity_ < n ∧ s1.elements_ = s.elements_ ∧ s1.capacity_ = n ∧
      ((s.elements_ = 0 ∧ s1.arr_ = some (Arr.alloc n)) ∨
       (s.elements_ = 1 ∧ ∃ a r, s.arr_ = some a ∧
          ops.assign (Arr.alloc n) a = some r ∧ s1.arr_ = some r))) := by
  unfold pvector.reserve at h
  by_cases hn : n > s.capacity
  · right
    simp only [hn, if_true] at h
    have hcap : s.capacity_ < n := hn
    rcases hs : s.elements_ with _ | _ | k
    · simp only [pvector.size, hs, for_range, Option.map_some', Option.some.injEq] at h
      subst h
      exact ⟨hcap, rfl, rfl, Or.inl ⟨rfl, rfl⟩⟩
    · simp only [pvector.size, hs, for_range, Option.some_bind, ptr_index, if_true] at h
      cases ha : s.arr_ with
      | none => rw [ha] at h; simp at h
      | some a =>
        rw [ha] at h
        simp only [Option.some_bind] at h
        cases hr : ops.assign (Arr.alloc n) a with
        | none => rw [hr] at h; simp at h
        | some r =>
          rw [hr] at h
          simp only [Option.map_some', Option.some.injEq] at h
          subst h
          exact ⟨hcap, rfl, rfl, Or.inr ⟨rfl, a, r, rfl, hr, rfl⟩⟩
    · exfalso
      simp only [pvector.size, hs] at h
      rw [for_range_undefined] at h
      · simp at h
      · intro st
        simp [ptr_index]
  · left
    simp only [hn, if_false, Option.some.injEq] at h
    exact h.symm

theorem pvector.reserve_undefined (ops : ArrayOps T) (s : pvector T) (n : Nat)
    (hn : s.capacity_ < n) (hs : 2 ≤ s.elements_) : s.reserve ops n = none := by
  cases h : s.reserve ops n with
  | none => rfl
  | some s1 =>
    rcases pvector.reserve_eq_some h with rfl | ⟨_, _, _, hcase⟩
    · have h2 : ¬ n > s1.capacity := by
        intro hgt
        unfold pvector.reserve at h
        simp only [hgt, if_true] at h
        obtain ⟨k, hk⟩ : ∃ k, s1.elements_ = k + 1 + 1 := ⟨s1.elements_ - 2, by omega⟩
        simp only [pvector.size, hk] at h
        rw [for_range_undefined] at h
        · simp at h
        · intro st
          simp [ptr_index]
      exact absurd hn h2
    · rcases hcase with ⟨h0, _⟩ | ⟨h1, _⟩ <;> omega

theorem pvector.from_range_undefined (ops : ArrayOps T) (src : List T)
    (hs : 2 ≤ src.length) : pvector.from_range ops src = none := by
  obtain ⟨k, hk⟩ : ∃ k, src.length = k + 1 + 1 := ⟨src.length - 2, by omega⟩
  unfold pvector.from_range
  simp only [pvector.capacity, pvector.sized, hk]
  apply for_range_undefined
  intro st
  simp [ptr_index]

theorem pvector.push_back_eq_some {ops : ArrayOps T} {s s1 : pvector T} {v : T}
    (h : s.push_back ops v = some s1) :
    ∃ g a, (if s.size = s.capacity then
          s.reserve ops (if s.capacity = 0 then 1
            else (s.capacity * pvector.growth_factor) % SIZE_T_MOD)
        else some s) = some g ∧
      g.arr_ = some a ∧ g.elements_ < a.count ∧
      s1 = ⟨some ⟨a.slots.set g.elements_ (some v)⟩,
            (g.elements_ + 1) % SIZE_T_MOD, g.capacity_⟩ := by
  unfold pvector.push_back at h
  simp only at h
  cases hg : (if s.size = s.capacity then
          s.reserve ops (if s.capacity = 0 then 1
            else (s.capacity * pvector.growth_factor) % SIZE_T_MOD)
        else some s) with
  | none => rw [hg] at h; simp at h
  | some g =>
    rw [hg] at h
    simp only [Option.some_bind] at h
    cases hst : g.store g.elements_ v with
    | none => rw [hst] at h; simp at h
    | some s2 =>
      rw [hst] at h
      simp only [Option.map_some', Option.some.injEq] at h
      obtain ⟨a, ha, hlt, rfl⟩ := pvector.store_eq_some hst
      exact ⟨g, a, rfl, ha, hlt, h.symm⟩

theorem pvector.push_back_full_undefined (ops : ArrayOps T) (s : pvector T) (v : T)
    (hfull : s.elements_ = s.capacity_) (hs : 2 ≤ s.elements_)
    (hc : s.capacity_ * 2 < SIZE_T_MOD) : s.push_back ops v = none := by
  cases h : s.push_back ops v with
  | none => rfl
  | some s1 =>
    obtain ⟨g, a, hg, _, _, _⟩ := pvector.push_back_eq_some h
    have hsz : s.size = s.capacity := hfull
    have hne : ¬ s.capacity = 0 := by unfold pvector.capacity; omega
    simp only [hsz, hne, if_true, if_false, pvector.growth_factor,
      Nat.mod_eq_of_lt (show s.capacity * 2 < SIZE_T_MOD from hc)] at hg
    rw [pvector.reserve_undefined ops s _ (by unfold pvector.capacity; omega) hs] at hg
    simp at hg

end lemmas

section fill_lemmas

variable {T : Type u}

theorem pvector.fill_loop (a : Arr T) (e c : Nat) (v : T) :
    ∀ k, k ≤ a.count → ∃ a1 : Arr T,
      for_range (fun i st => pvector.store st i v) k ⟨some a, e, c⟩
        = some ⟨some a1, e, c⟩ ∧
      a1.count = a.count ∧
      (∀ i, i < k → a1.slots[i]? = some (some v)) ∧
      (∀ i, k ≤ i → a1.slots[i]? = a.slots[i]?) := by
  intro k
  induction k with
  | zero =>
    intro _
    exact ⟨a, rfl, rfl, fun i hi => absurd hi (Nat.not_lt_zero i), fun i _ => rfl⟩
  | succ k ih =>
    intro hk
    obtain ⟨a1, hrun, hcount, hlow, hhigh⟩ := ih (Nat.le_of_succ_le hk)
    have hk1 : k < a1.count := by omega
    refine ⟨⟨a1.slots.set k (some v)⟩, ?_, ?_, ?_, ?_⟩
    · rw [for_range, hrun]
      exact pvector.store_of_lt a1 e c k v hk1
    · simpa [Arr.count] using hcount
    · intro i hi
      by_cases hik : i = k
      · subst hik
        have : i < a1.slots.length := hk1
        simp [List.getElem?_set, this]
      · have hne : k ≠ i := fun h => hik h.symm
        simp only [List.getElem?_set, hne, if_false]
        exact hlow i (by omega)
    · intro i hi
      have hne : k ≠ i := by omega
      simp only [List.getElem?_set, hne, if_false]
      exact hhigh i (by omega)

theorem pvector.fill_of_valid (s : pvector T) (v : T) (h : s.Valid) :
    ∃ s1, s.fill v = some s1 ∧ s1.elements_ = s.elements_ ∧
      s1.capacity_ = s.capacity_ ∧ s1.Valid ∧
      (∀ i, i < s.elements_ → s1.index i = some v) ∧
      (∀ i, s.elements_ ≤ i → s1.slot i = s.slot i) := by
  obtain ⟨arr, e, c⟩ := s
  obtain ⟨hle, hcap⟩ := h
  cases arr with
  | none =>
    simp only at hle hcap
    subst hcap
    have he : e = 0 := Nat.le_zero.mp hle
    subst he
    exact ⟨⟨none, 0, 0⟩, rfl, rfl, rfl, ⟨Nat.le_refl 0, rfl⟩,
      fun i hi => absurd hi (Nat.not_lt_zero i), fun i _ => rfl⟩
  | some a =>
    simp only at hle hcap
    have hea : e ≤ a.count := hcap ▸ hle
    obtain ⟨a1, hrun, hcount, hlow, hhigh⟩ := pvector.fill_loop a e c v e hea
    refine ⟨⟨some a1, e, c⟩, hrun, rfl, rfl, ⟨hle, ?_⟩, ?_, ?_⟩
    · simp only [hcount]; exact hcap
    · intro i hi
      simp [pvector.index, Arr.get, hlow i hi]
    · intro i hi
      simp [pvector.slot, hhigh i hi]

end fill_lemmas

section bounded_lemmas

variable {T : Type u}

theorem pvector.store_bounded {s s1 : pvector T} {n : Nat} {v : T}
    (h : s.store n v = some s1) (hb : s.Bounded) :
    s1.Bounded ∧ n < s1.capacity_ ∧ s1.elements_ = s.elements_ ∧
      s1.capacity_ = s.capacity_ := by
  obtain ⟨a, ha, hn, rfl⟩ := pvector.store_eq_some h
  have hac : a.count ≤ s.capacity_ := hb.2 a ha
  refine ⟨⟨hb.1, ?_⟩, ?_, rfl, rfl⟩
  · intro a1 h1
    simp only [Option.some.injEq] at h1
    subst h1
    simpa [Arr.count] using hac
  · exact Nat.lt_of_lt_of_le hn hac

theorem pvector.fill_bounded {s s1 : pvector T} {v : T}
    (h : s.fill v = some s1) (hb : s.Bounded) : s1.Bounded :=
  for_range_preserves (fun i st => pvector.store st i v) pvector.Bounded
    (fun _ _ _ hst hbody => (pvector.store_bounded hbody hst).1)
    s.elements_ s s1 hb h

theorem pvector.sized_bounded (n : Nat) : (pvector.sized n : pvector T).Bounded := by
  refine ⟨Nat.le_refl n, ?_⟩
  intro a ha
  simp only [pvector.sized, Option.some.injEq] at ha
  subst ha
  simp [Arr.count, Arr.alloc, pvector.sized]

theorem pvector.from_range_bounded {ops : ArrayOps T} (hops : ops.NoGrow)
    {src : List T} {s : pvector T} (h : pvector.from_range ops src = some s) :
    s.Bounded := by
  refine for_range_preserves _ pvector.Bounded ?_ _ _ s
    (pvector.sized_bounded src.length) h
  intro i st st1 hst hbody
  cases hp : ptr_index st.arr_ i with
  | none => simp [hp] at hbody
  | some dst =>
    cases hx : src[i]? with
    | none => simp [hp, hx] at hbody
    | some x =>
      cases hr : ops.assign_val dst x with
      | none => simp [hp, hx, hr] at hbody
      | some r =>
        simp only [hp, hx, hr, Option.some_bind, Option.map_some',
          Option.some.injEq] at hbody
        subst hbody
        have hdst : st.arr_ = some dst := ptr_index_eq_some hp
        refine ⟨hst.1, ?_⟩
        intro a ha
        simp only [Option.some.injEq] at ha
        subst ha
        exact Nat.le_trans (hops.2 dst x r hr) (hst.2 dst hdst)

theorem pvector.reserve_bounded {ops : ArrayOps T} (hops : ops.NoGrow)
    {s s1 : pvector T} {n : Nat} (h : s.reserve ops n = some s1) (hb : s.Bounded) :
    s1.Bounded ∧ s1.elements_ = s.elements_ ∧ s.capacity_ ≤ s1.capacity_ := by
  rcases pvector.reserve_eq_some h with rfl | ⟨hlt, he, hc, hcase⟩
  · exact ⟨hb, rfl, Nat.le_refl _⟩
  · refine ⟨⟨?_, ?_⟩, he, by omega⟩
    · have := hb.1
      omega
    · intro a1 ha1
      rcases hcase with ⟨_, hnew⟩ | ⟨_, a, r, ha, hr, hnew⟩
      · rw [hnew] at ha1
        simp only [Option.some.injEq] at ha1
        subst ha1
        simp [Arr.count, Arr.alloc, hc]
      · rw [hnew] at ha1
        simp only [Option.some.injEq] at ha1
        subst ha1
        have h1 := hops.1 (Arr.alloc n) a r hr
        have h2 := hb.2 a ha
        have h3 : (Arr.alloc n : Arr T).count = n := by simp [Arr.count, Arr.alloc]
        rw [h3] at h1
        rw [hc]
        exact Nat.le_trans h1 (Nat.max_le.mpr ⟨Nat.le_refl n, by omega⟩)

theorem pvector.push_back_bounded {ops : ArrayOps T} (hops : ops.NoGrow)
    {s s1 : pvector T} {v : T} (h : s.push_back ops v = some s1) (hb : s.Bounded) :
    s1.Bounded := by
  unfold pvector.push_back at h
  simp only at h
  have key : ∀ g : pvector T, g.Bounded →
      (g.store g.elements_ v).map (fun s2 =>
        (⟨s2.arr_, (s2.elements_ + 1) % SIZE_T_MOD, s2.capacity_⟩ : pvector T)) = some s1 →
      s1.Bounded := by
    intro g hg hs
    cases hst : g.store g.elements_ v with
    | none => simp [hst] at hs
    | some s2 =>
      simp only [hst, Option.map_some', Option.some.injEq] at hs
      subst hs
      obtain ⟨hb2, hlt, he2, _⟩ := pvector.store_bounded hst hg
      refine ⟨?_, hb2.2⟩
      show (s2.elements_ + 1) % SIZE_T_MOD ≤ s2.capacity_
      have := Nat.mod_le (s2.elements_ + 1) SIZE_T_MOD
      omega
  by_cases hfull : s.size = s.capacity
  · simp only [hfull, if_true] at h
    cases hr : s.reserve ops
        (if s.capacity = 0 then 1 else (s.capacity * pvector.growth_factor) % SIZE_T_MOD) with
    | none => simp [hr] at h
    | some g =>
      simp only [hr, Option.some_bind] at h
      exact key g (pvector.reserve_bounded hops hr hb).1 h
  · simp only [hfull, if_false, Option.some_bind] at h
    exact key s hb h

theorem pvector.bounded_of_reachable {ops : ArrayOps T} (hops : ops.NoGrow)
    {z : Bool} {s : pvector T} (h : pvector.Reachable ops z s) : s.Bounded := by
  induction h with
  | new => exact ⟨Nat.le_refl 0, fun a ha => by simp [pvector.new] at ha⟩
  | sized n _ => exact pvector.sized_bounded n
  | sized_val n v s _ hs => exact pvector.fill_bounded hs (pvector.sized_bounded n)
  | from_range src s _ hs => exact pvector.from_range_bounded hops hs
  | move_ctor_new o _ ih => exact ih
  | move_ctor_other o _ _ => exact ⟨Nat.le_refl 0, fun a ha => by simp [pvector.move_ctor] at ha⟩
  | move_assign_this s o _ _ _ iho => exact iho
  | move_assign_other s o _ _ _ _ =>
    exact ⟨Nat.le_refl 0, fun a ha => by simp [pvector.move_assign] at ha⟩
  | reserve s n s1 _ hs ih => exact (pvector.reserve_bounded hops hs ih).1
  | resize s n s1 _ hs ih => exact (pvector.reserve_bounded hops hs ih).1
  | push_back s v s1 _ hs ih => exact pvector.push_back_bounded hops hs ih
  | fill s v s1 _ hs ih => exact pvector.fill_bounded hs ih
  | clear s _ ih => exact ⟨Nat.zero_le _, ih.2⟩
  | empty s _ ih => exact ⟨Nat.zero_le _, ih.2⟩
  | swap_this s o _ _ _ iho => exact iho
  | swap_other s o _ _ ihs _ => exact ihs

end bounded_lemmas

section null_lemmas

variable {T : Type u}

theorem pvector.nullInv_of_some {z : Bool} {s s1 : pvector T} {a a1 : Arr T}
    (hs : s.NullInv z) (ha : s.arr_ = some a) (ha1 : s1.arr_ = some a1)
    (hc : s1.capacity_ = s.capacity_) : s1.NullInv z := by
  refine ⟨fun h => ?_, fun hz h0 => ?_⟩
  · rw [ha1] at h; exact absurd h (by simp)
  · have := hs.2 hz (hc ▸ h0)
    rw [ha] at this; exact absurd this (by simp)

theorem pvector.store_nullInv {z : Bool} {s s1 : pvector T} {n : Nat} {v : T}
    (h : s.store n v = some s1) (hs : s.NullInv z) : s1.NullInv z := by
  obtain ⟨a, ha, _, rfl⟩ := pvector.store_eq_some h
  exact pvector.nullInv_of_some hs ha rfl rfl

theorem pvector.fill_nullInv {z : Bool} {s s1 : pvector T} {v : T}
    (h : s.fill v = some s1) (hs : s.NullInv z) : s1.NullInv z :=
  for_range_preserves (fun i st => pvector.store st i v) (pvector.NullInv z)
    (fun _ _ _ hst hbody => pvector.store_nullInv hbody hst)
    s.elements_ s s1 hs h

theorem pvector.sized_nullInv {z : Bool} (n : Nat) (hn : z = true ∨ 0 < n) :
    (pvector.sized n : pvector T).NullInv z := by
  refine ⟨fun h => ?_, fun hz h0 => ?_⟩
  · simp [pvector.sized] at h
  · exfalso
    simp only [pvector.sized] at h0
    rcases hn with hz1 | hpos
    · rw [hz] at hz1; exact absurd hz1 (by decide)
    · omega

theorem pvector.from_range_nullInv {ops : ArrayOps T} {z : Bool}
    {src : List T} {s : pvector T} (hn : z = true ∨ 0 < src.length)
    (h : pvector.from_range ops src = some s) : s.NullInv z := by
  refine for_range_preserves _ (pvector.NullInv z) ?_ _ _ s
    (pvector.sized_nullInv src.length hn) h
  intro i st st1 hst hbody
  cases hp : ptr_index st.arr_ i with
  | none => simp [hp] at hbody
  | some dst =>
    cases hx : src[i]? with
    | none => simp [hp, hx] at hbody
    | some x =>
      cases hr : ops.assign_val dst x with
      | none => simp [hp, hx, hr] at hbody
      | some r =>
        simp only [hp, hx, hr, Option.some_bind, Option.map_some',
          Option.some.injEq] at hbody
        subst hbody
        exact pvector.nullInv_of_some hst (ptr_index_eq_some hp) rfl rfl

theorem pvector.reserve_nullInv {ops : ArrayOps T} {z : Bool}
    {s s1 : pvector T} {n : Nat} (h : s.reserve ops n = some s1) (hs : s.NullInv z) :
    s1.NullInv z := by
  rcases pvector.reserve_eq_some h with rfl | ⟨hlt, _, hc, hcase⟩
  · exact hs
  · have hsome : ∃ a1, s1.arr_ = some a1 := by
      rcases hcase with ⟨_, hnew⟩ | ⟨_, a, r, _, _, hnew⟩
      · exact ⟨_, hnew⟩
      · exact ⟨_, hnew⟩
    obtain ⟨a1, ha1⟩ := hsome
    refine ⟨fun h0 => ?_, fun _ h0 => ?_⟩
    · rw [ha1] at h0; exact absurd h0 (by simp)
    · omega

theorem pvector.push_back_nullInv {ops : ArrayOps T} {z : Bool}
    {s s1 : pvector T} {v : T} (h : s.push_back ops v = some s1) (hs : s.NullInv z) :
    s1.NullInv z := by
  unfold pvector.push_back at h
  simp only at h
  have key : ∀ g : pvector T, g.NullInv z →
      (g.store g.elements_ v).map (fun s2 =>
        (⟨s2.arr_, (s2.elements_ + 1) % SIZE_T_MOD, s2.capacity_⟩ : pvector T)) = some s1 →
      s1.NullInv z := by
    intro g hg hst1
    cases hst : g.store g.elements_ v with
    | none => simp [hst] at hst1
    | some s2 =>
      simp only [hst, Option.map_some', Option.some.injEq] at hst1
      subst hst1
      have h2 : s2.NullInv z := pvector.store_nullInv hst hg
      exact h2
  by_cases hfull : s.size = s.capacity
  · simp only [hfull, if_true] at h
    cases hr : s.reserve ops
        (if s.capacity = 0 then 1 else (s.capacity * pvector.growth_factor) % SIZE_T_MOD) with
    | none => simp [hr] at h
    | some g =>
      simp only [hr, Option.some_bind] at h
      exact key g (pvector.reserve_nullInv hr hs) h
  · simp only [hfull, if_false, Option.some_bind] at h
    exact key s hs h

theorem pvector.nullInv_new (z : Bool) : (⟨none, 0, 0⟩ : pvector T).NullInv z :=
  ⟨fun _ => rfl, fun _ _ => rfl⟩

theorem pvector.nullInv_of_reachable {ops : ArrayOps T}
    {z : Bool} {s : pvector T} (h : pvector.Reachable ops z s) : s.NullInv z := by
  induction h with
  | new => exact pvector.nullInv_new z
  | sized n hn => exact pvector.sized_nullInv n hn
  | sized_val n v s hn hs => exact pvector.fill_nullInv hs (pvector.sized_nullInv n hn)
  | from_range src s hn hs => exact pvector.from_range_nullInv hn hs
  | move_ctor_new o _ ih => exact ih
  | move_ctor_other o _ _ => exact pvector.nullInv_new z
  | move_assign_this s o _ _ _ iho => exact iho
  | move_assign_other s o _ _ _ _ => exact pvector.nullInv_new z
  | reserve s n s1 _ hs ih => exact pvector.reserve_nullInv hs ih
  | resize s n s1 _ hs ih => exact pvector.reserve_nullInv hs ih
  | push_back s v s1 _ hs ih => exact pvector.push_back_nullInv hs ih
  | fill s v s1 _ hs ih => exact pvector.fill_nullInv hs ih
  | clear s _ ih => exact ih
  | empty s _ ih => exact ih
  | swap_this s o _ _ _ iho => exact iho
  | swap_other s o _ _ ihs _ => exact ihs

end null_lemmas

/-! ## The claims -/

section claims

variable {T : Type u}

theorem ArrayOps.slotwise_noGrow (T : Type u) : (ArrayOps.slotwise T).NoGrow := by
  constructor
  · intro d s r hr
    simp only [ArrayOps.slotwise, Option.some.injEq] at hr
    subst hr
    simp only [Arr.count, List.length_append, List.length_take, List.length_drop]
    omega
  · intro d x r hr
    simp only [ArrayOps.slotwise, Option.some.injEq] at hr
    subst hr
    exact Nat.le_refl _

/-- C1, the code at `push_back(0); push_back(1); push_back(2)` on a
default-constructed vector: the calls have no defined result, whatever the
assignment of `Array<T_>` objects does. The third call finds
`size() == capacity() == 2` and calls `reserve(4)`, whose loop body
`new_range[i] = arr_[i]` subscripts the two `Array<T_>*` pointers at `i = 1`. -/
theorem push_back_three_undefined (ops : ArrayOps Nat) :
    pvector.push_all ops pvector.new [0, 1, 2] = none := by
  have h0 : pvector.push_back ops pvector.new 0 = some ⟨some ⟨[some 0]⟩, 1, 1⟩ := rfl
  simp only [pvector.push_all, h0, Option.some_bind]
  cases h1 : pvector.push_back ops ⟨some ⟨[some 0]⟩, 1, 1⟩ 1 with
  | none => rfl
  | some s2 =>
    obtain ⟨g, a, hg, _, _, rfl⟩ := pvector.push_back_eq_some h1
    simp only [pvector.size, pvector.capacity, if_true] at hg
    have hg2 : g.elements_ = 1 ∧ g.capacity_ = 2 := by
      rcases pvector.reserve_eq_some hg with rfl | ⟨_, he, hc, _⟩
      · unfold pvector.reserve at hg
        revert hg
        simp [pvector.growth_factor, SIZE_T_MOD, pvector.capacity]
      · refine ⟨he, ?_⟩
        rw [hc]
        decide
    simp only [Option.some_bind, hg2.1, hg2.2]
    have hmod : (1 + 1) % SIZE_T_MOD = 2 := by decide
    rw [pvector.push_back_full_undefined ops _ 2 (by simp only [hmod])
      (by simp only [hmod]; exact Nat.le_refl 2)
      (by show 2 * 2 < SIZE_T_MOD; decide)]
    rfl

/-- C2, the code at `pvector<int> v(2, 7); v.reserve(3);`: the constructor gives a
valid vector of size and capacity `2`, and `reserve(3)`, with `3 > capacity()`,
has no defined result, whatever the assignment of `Array<T_>` objects does: its
loop body `new_range[i] = arr_[i]` subscripts the two pointers at `i = 1`. -/
theorem reserve_two_live_undefined (ops : ArrayOps Nat) :
    ∃ s : pvector Nat, pvector.sized_val 2 7 = some s ∧ s.Valid ∧ s.size = 2 ∧
      s.capacity < 3 ∧ s.reserve ops 3 = none :=
  ⟨⟨some ⟨[some 7, some 7]⟩, 2, 2⟩, rfl, by decide, rfl, by decide,
    pvector.reserve_undefined ops _ 3 (by decide) (by decide)⟩

/-- C3, the code on a default-constructed vector: `size()` is `0` and `empty()`
returns `false`. -/
theorem empty_false_on_new :
    (pvector.new : pvector Nat).size = 0 ∧ (pvector.new : pvector Nat).empty.1 = false :=
  ⟨rfl, rfl⟩

/-- C4, the code at `pvector<int> v(5, 7); v.empty();`: the vector has size `5`
before the call to `empty()` and size `0` after it. -/
theorem empty_resets_size :
    ∃ s : pvector Nat, pvector.sized_val 5 7 = some s ∧ s.size = 5 ∧
      s.empty.2.size = 0 ∧ s.empty.2 ≠ s :=
  ⟨⟨some ⟨[some 7, some 7, some 7, some 7, some 7]⟩, 5, 5⟩, rfl, rfl, rfl, by decide⟩

/-- C5: `size() <= capacity()` in every reachable state: it holds after each
constructor (default, sized, sized-with-value, range-copy, move) and every public
operation (reserve, resize, push_back, fill, clear, empty, swap, move assignment)
keeps it, for every `Array<T_>` whose assignment does not add slots. -/
theorem size_le_capacity_of_reachable (ops : ArrayOps T) (hops : ops.NoGrow)
    (zero_ok : Bool) (s : pvector T) (h : pvector.Reachable ops zero_ok s) :
    s.size ≤ s.capacity :=
  (pvector.bounded_of_reachable hops h).1

theorem size_le_capacity_witness :
    (ArrayOps.slotwise Nat).NoGrow ∧
    pvector.Reachable (ArrayOps.slotwise Nat) true
      (⟨some ⟨[some 5, some 6]⟩, 2, 2⟩ : pvector Nat) ∧
    (⟨some ⟨[some 5, some 6]⟩, 2, 2⟩ : pvector Nat).size ≤
      (⟨some ⟨[some 5, some 6]⟩, 2, 2⟩ : pvector Nat).capacity :=
  have hr : pvector.Reachable (ArrayOps.slotwise Nat) true
      (⟨some ⟨[some 5, some 6]⟩, 2, 2⟩ : pvector Nat) :=
    pvector.Reachable.push_back ⟨some ⟨[some 5]⟩, 1, 1⟩ 6 _
      (pvector.Reachable.push_back pvector.new 5 _ pvector.Reachable.new rfl) rfl
  ⟨ArrayOps.slotwise_noGrow Nat, hr,
    size_le_capacity_of_reachable (ArrayOps.slotwise Nat)
      (ArrayOps.slotwise_noGrow Nat) true _ hr⟩

/-- C6 as stated fails: the state after the sized constructor called with `0`
elements is reachable, its storage pointer is not null and its `capacity()` is
`0`. -/
theorem sized_zero_storage_not_null :
    pvector.Reachable (ArrayOps.slotwise Nat) true (pvector.sized 0 : pvector Nat) ∧
    ¬ ((pvector.sized 0 : pvector Nat).arr_ = none ↔
        (pvector.sized 0 : pvector Nat).capacity = 0) :=
  ⟨pvector.Reachable.sized 0 (Or.inl rfl), by decide⟩

/-- C6 as amended: in every reachable state a null storage pointer implies
`capacity() == 0`; and in every state reached without calling a sized
constructor with `0` elements or the range constructor on an empty range, the
storage pointer is null if and only if `capacity() == 0`. -/
theorem null_storage_of_reachable (ops : ArrayOps T) (zero_ok : Bool)
    (s : pvector T) (h : pvector.Reachable ops zero_ok s) :
    (s.arr_ = none → s.capacity = 0) ∧
    (zero_ok = false → (s.arr_ = none ↔ s.capacity = 0)) :=
  have hinv := pvector.nullInv_of_reachable h
  ⟨hinv.1, fun hz => ⟨hinv.1, hinv.2 hz⟩⟩

theorem null_storage_witness :
    pvector.Reachable (ArrayOps.slotwise Nat) false
      (⟨some ⟨[some 5]⟩, 1, 1⟩ : pvector Nat) ∧
    ((⟨some ⟨[some 5]⟩, 1, 1⟩ : pvector Nat).arr_ = none ↔
      (⟨some ⟨[some 5]⟩, 1, 1⟩ : pvector Nat).capacity = 0) :=
  have hr : pvector.Reachable (ArrayOps.slotwise Nat) false
      (⟨some ⟨[some 5]⟩, 1, 1⟩ : pvector Nat) :=
    pvector.Reachable.push_back pvector.new 5 _ pvector.Reachable.new rfl
  ⟨hr, (null_storage_of_reachable (ArrayOps.slotwise Nat) false _ hr).2 rfl⟩

/-- C7: on a valid vector of size `n`, `fill(v)` returns; afterwards every index
`i < n` reads `v`, every slot at an index `>= n` holds what it held before, and
`size()` and `capacity()` are unchanged. -/
theorem fill_spec (s : pvector T) (v : T) (h : s.Valid) :
    ∃ s1, s.fill v = some s1 ∧
      (∀ i, i < s.size → s1.index i = some v) ∧
      (∀ i, s.size ≤ i → s1.slot i = s.slot i) ∧
      s1.size = s.size ∧ s1.capacity = s.capacity :=
  let ⟨s1, hrun, he, hc, _, hlow, hhigh⟩ := pvector.fill_of_valid s v h
  ⟨s1, hrun, hlow, hhigh, he, hc⟩

theorem fill_spec_witness :
    (⟨some ⟨[some 0, some 1, some 2, none, some 4]⟩, 3, 5⟩ : pvector Nat).Valid ∧
    ∃ s1, (⟨some ⟨[some 0, some 1, some 2, none, some 4]⟩, 3, 5⟩ : pvector Nat).fill 9
        = some s1 ∧
      (∀ i, i < 3 → s1.index i = some 9) ∧
      (∀ i, 3 ≤ i → s1.slot i =
        (⟨some ⟨[some 0, some 1, some 2, none, some 4]⟩, 3, 5⟩ : pvector Nat).slot i) ∧
      s1.size = 3 ∧ s1.capacity = 5 :=
  ⟨by decide, fill_spec _ 9 (by decide)⟩

/-- C8: for every `n` and `v`, `pvector(n)` has `size() == capacity() == n`, and
`pvector(n, v)` returns a vector with `size() == capacity() == n` in which
`operator[](i) == v` for every `i < n`. -/
theorem sized_ctor_spec (n : Nat) (v : T) :
    (pvector.sized n : pvector T).size = n ∧
    (pvector.sized n : pvector T).capacity = n ∧
    ∃ s, pvector.sized_val n v = some s ∧ s.size = n ∧ s.capacity = n ∧
      ∀ i, i < n → s.index i = some v :=
  have hv : (pvector.sized n : pvector T).Valid :=
    ⟨Nat.le_refl n, by simp [pvector.sized, Arr.alloc, Arr.count]⟩
  let ⟨s, hrun, he, hc, _, hlow, _⟩ := pvector.fill_of_valid (pvector.sized n) v hv
  ⟨rfl, rfl, s, hrun, he, hc, hlow⟩

theorem sized_ctor_witness :
    ∃ s : pvector Nat, pvector.sized_val 5 7 = some s ∧ s.size = 5 ∧
      s.capacity = 5 ∧ s.index 0 = some 7 ∧ s.index 4 = some 7 :=
  let ⟨s, hrun, he, hc, hall⟩ := (sized_ctor_spec 5 (7 : Nat)).2.2
  ⟨s, hrun, he, hc, hall 0 (by decide), hall 4 (by decide)⟩

/-- C9, the code at a source range of length `2` holding `1, 2`: the range-copy
constructor has no defined result, whatever assigning an element to an
`Array<T_>` object does: its loop body `arr_[i] = copy_begin[i]` subscripts the
pointer `arr_` at `i = 1`. -/
theorem from_range_two_undefined (ops : ArrayOps Nat) :
    pvector.from_range ops [1, 2] = none :=
  pvector.from_range_undefined ops [1, 2] (by decide)

/-- C10: move construction and move assignment both leave the destination with
the source's prior storage, size and capacity (hence its element values), and
leave the source with null storage, `size() == 0` and `capacity() == 0`. -/
theorem move_spec (dst src : pvector T) :
    (pvector.move_ctor src).1 = src ∧
    (pvector.move_assign dst src).1 = src ∧
    (pvector.move_ctor src).2.arr_ = none ∧
    (pvector.move_ctor src).2.size = 0 ∧
    (pvector.move_ctor src).2.capacity = 0 ∧
    (pvector.move_assign dst src).2.arr_ = none ∧
    (pvector.move_assign dst src).2.size = 0 ∧
    (pvector.move_assign dst src).2.capacity = 0 :=
  ⟨rfl, rfl, rfl, rfl, rfl, rfl, rfl, rfl⟩

end claims

/-! ## Lemmas on reserve, the growth step and push_back -/

section growth_lemmas

variable {T : Type u}

theorem pvector.push_back_eq_grow (ops : ArrayOps T) (s : pvector T) (v : T) :
    s.push_back ops v = (s.grow ops).bind (fun s1 =>
      (s1.store s1.elements_ v).map (fun s2 =>
        ⟨s2.arr_, (s2.elements_ + 1) % SIZE_T_MOD, s2.capacity_⟩)) :=
  rfl

theorem pvector.reserve_of_le (ops : ArrayOps T) (s : pvector T) (n : Nat)
    (h : n ≤ s.capacity) : s.reserve ops n = some s := by
  unfold pvector.reserve
  have hn : ¬ n > s.capacity := Nat.not_lt.mpr h
  simp only [hn, if_false]

theorem pvector.reserve_of_gt {ops : ArrayOps T} {s s1 : pvector T} {n : Nat}
    (hn : s.capacity < n) (h : s.reserve ops n = some s1) :
    s1.capacity_ = n ∧ s1.elements_ = s.elements_ ∧ ∃ a, s1.arr_ = some a := by
  rcases pvector.reserve_eq_some h with rfl | ⟨_, he, hc, hcase⟩
  · exfalso
    unfold pvector.reserve at h
    have hgt : n > s1.capacity := hn
    simp only [hgt, if_true] at h
    cases hl : for_range
        (fun i nr =>
          (ptr_index nr i).bind (fun dst =>
            (ptr_index s1.arr_ i).bind (fun src =>
              (ops.assign dst src).map some)))
        s1.size (some (Arr.alloc n)) with
    | none => rw [hl] at h; simp at h
    | some nr =>
      rw [hl] at h
      simp only [Option.map_some', Option.some.injEq] at h
      have hcap : n = s1.capacity_ := congrArg pvector.capacity_ h
      unfold pvector.capacity at hn
      omega
  · refine ⟨hc, he, ?_⟩
    rcases hcase with ⟨_, hnew⟩ | ⟨_, a, r, _, _, hnew⟩
    · exact ⟨_, hnew⟩
    · exact ⟨_, hnew⟩

theorem pvector.reserve_capacity_le {ops : ArrayOps T} {s s1 : pvector T} {n : Nat}
    (h : s.reserve ops n = some s1) :
    s.capacity_ ≤ s1.capacity_ ∧ s1.elements_ = s.elements_ := by
  rcases pvector.reserve_eq_some h with rfl | ⟨hlt, he, hc, _⟩
  · exact ⟨Nat.le_refl _, rfl⟩
  · exact ⟨by omega, he⟩

theorem pvector.grow_capacity_le {ops : ArrayOps T} {s g : pvector T}
    (h : s.grow ops = some g) :
    s.capacity_ ≤ g.capacity_ ∧ g.elements_ = s.elements_ := by
  unfold pvector.grow at h
  by_cases hfull : s.size = s.capacity
  · simp only [hfull, if_true] at h
    exact pvector.reserve_capacity_le h
  · simp only [hfull, if_false, Option.some.injEq] at h
    subst h
    exact ⟨Nat.le_refl _, rfl⟩

theorem pvector.grow_of_lt (ops : ArrayOps T) (s : pvector T)
    (h : s.elements_ < s.capacity_) : s.grow ops = some s := by
  unfold pvector.grow
  have hne : ¬ s.size = s.capacity := by
    unfold pvector.size pvector.capacity; omega
  simp only [hne, if_false]

theorem pvector.push_back_of_lt (ops : ArrayOps T) (a : Arr T) (e c : Nat) (v : T)
    (hc : e < c) (ha : e < a.count) :
    (⟨some a, e, c⟩ : pvector T).push_back ops v =
      some ⟨some ⟨a.slots.set e (some v)⟩, (e + 1) % SIZE_T_MOD, c⟩ := by
  rw [pvector.push_back_eq_grow, pvector.grow_of_lt ops _ hc]
  simp only [Option.some_bind]
  rw [pvector.store_of_lt a e c e v ha]
  rfl

theorem pvector.push_back_capacity_le {ops : ArrayOps T} {s s1 : pvector T} {v : T}
    (h : s.push_back ops v = some s1) : s.capacity_ ≤ s1.capacity_ := by
  obtain ⟨g, a, hg, _, _, rfl⟩ := pvector.push_back_eq_some h
  exact (pvector.grow_capacity_le (s := s) (g := g) hg).1

theorem pvector.push_all_three_undefined (ops : ArrayOps T) (x y z : T) :
    pvector.push_all ops pvector.new [x, y, z] = none := by
  have h0 : pvector.push_back ops pvector.new x = some ⟨some ⟨[some x]⟩, 1, 1⟩ := rfl
  simp only [pvector.push_all, h0, Option.some_bind]
  cases h1 : pvector.push_back ops ⟨some ⟨[some x]⟩, 1, 1⟩ y with
  | none => rfl
  | some s2 =>
    obtain ⟨g, a, hg, _, _, rfl⟩ := pvector.push_back_eq_some h1
    simp only [pvector.size, pvector.capacity, if_true] at hg
    have hgt : (⟨some ⟨[some x]⟩, 1, 1⟩ : pvector T).capacity <
        (if (1 : Nat) = 0 then 1 else (1 * pvector.growth_factor) % SIZE_T_MOD) := by
      show (1 : Nat) <
        (if (1 : Nat) = 0 then 1 else (1 * pvector.growth_factor) % SIZE_T_MOD)
      decide
    obtain ⟨hc, he, _⟩ := pvector.reserve_of_gt hgt hg
    have hc2 : g.capacity_ = 2 := by rw [hc]; decide
    have he1 : g.elements_ = 1 := he
    simp only [Option.some_bind, he1, hc2]
    have hmod : (1 + 1) % SIZE_T_MOD = 2 := by decide
    rw [pvector.push_back_full_undefined ops _ z (by simp only [hmod])
      (by simp only [hmod]; exact Nat.le_refl 2)
      (by show 2 * 2 < SIZE_T_MOD; decide)]
    rfl

end growth_lemmas

/-! ## Lemmas on loops run in a given index order -/

section order_lemmas

variable {T : Type u}

theorem ArrayOps.slotwise_assignCopies (T : Type u) :
    (ArrayOps.slotwise T).AssignCopies := by
  intro d s r hr i
  simp only [ArrayOps.slotwise, Option.some.injEq] at hr
  subst hr
  simp only
  by_cases hi : i < d.slots.length
  · by_cases his : i < s.slots.length
    · left
      rw [List.getElem?_append_left (by simp [List.length_take]; omega)]
      exact List.getElem?_take_of_lt hi
    · right
      rw [List.getElem?_append_right (by simp [List.length_take]; omega)]
      rw [List.getElem?_drop]
      congr 1
      simp only [List.length_take]
      omega
  · right
    have hnone : d.slots[i]? = none := List.getElem?_eq_none (by omega)
    rw [hnone]
    apply List.getElem?_eq_none
    simp only [List.length_append, List.length_take, List.length_drop]
    omega

theorem pvector.fill_capacity {s s1 : pvector T} {v : T} (h : s.fill v = some s1) :
    s1.capacity_ = s.capacity_ ∧ s1.elements_ = s.elements_ :=
  for_range_preserves (fun i st => pvector.store st i v)
    (fun st => st.capacity_ = s.capacity_ ∧ st.elements_ = s.elements_)
    (fun _ st st1 hst hbody => by
      obtain ⟨a, _, _, rfl⟩ := pvector.store_eq_some hbody
      exact hst)
    s.elements_ s s1 ⟨rfl, rfl⟩ h

end order_lemmas

/-! ## The claims on push_back, resize, clear, reserve, swap and iterators -/

section more_claims

variable {T : Type u}

/-- C11, the code at `pvector<int> v(2, 7); v.push_back(9);`: the vector is
valid with `size() == capacity() == 2`, and `push_back(9)` has no defined result,
whatever the assignment of `Array<T_>` objects does: it calls `reserve(4)`, whose
loop body `new_range[i] = arr_[i]` subscripts the two pointers at `i = 1`. -/
theorem push_back_at_capacity_undefined (ops : ArrayOps Nat) :
    ∃ s : pvector Nat, pvector.sized_val 2 7 = some s ∧ s.Valid ∧ s.size = 2 ∧
      s.capacity = 2 ∧ s.push_back ops 9 = none :=
  ⟨⟨some ⟨[some 7, some 7]⟩, 2, 2⟩, rfl, by decide, rfl, rfl,
    pvector.push_back_full_undefined ops _ 9 rfl (by decide) (by decide)⟩

/-- C12: for every state and every `n`, `resize(n)` is `reserve(n)`: the two calls
have the same result, defined or not. For `n <= capacity()` the call returns the
state as it is; whenever it returns, `size()` is unchanged; and, when assigning
`Array<T_>` objects copies slots, every slot at an index `>= size()` holds what
it held before or is uninitialised. -/
theorem resize_eq_reserve (ops : ArrayOps T) (s : pvector T) (n : Nat) :
    s.resize ops n = s.reserve ops n ∧
    (n ≤ s.capacity → s.resize ops n = some s) ∧
    (∀ s1, s.resize ops n = some s1 → s1.size = s.size) ∧
    (ops.AssignCopies → ∀ s1, s.resize ops n = some s1 →
      ∀ i, s.size ≤ i → s1.slot i = s.slot i ∨ s1.index i = none) := by
  refine ⟨rfl, pvector.reserve_of_le ops s n, ?_, ?_⟩
  · intro s1 h
    exact (pvector.reserve_capacity_le (s := s) (n := n) h).2
  · intro hops s1 h i _
    have hfresh : ∀ j : Nat, ((Arr.alloc n : Arr T).slots[j]?).join = none := by
      intro j
      simp only [Arr.alloc, List.getElem?_replicate]
      split <;> rfl
    rcases pvector.reserve_eq_some (s := s) (n := n) h with rfl | ⟨_, _, _, hcase⟩
    · exact Or.inl rfl
    · rcases hcase with ⟨_, hnew⟩ | ⟨_, a, r, ha, hr, hnew⟩
      · right
        simp only [pvector.index, hnew, Option.some_bind, Arr.get]
        exact hfresh i
      · rcases hops (Arr.alloc n) a r hr i with hsrc | hdst
        · left
          simp only [pvector.slot, hnew, ha, Option.some_bind]
          exact hsrc
        · right
          simp only [pvector.index, hnew, Option.some_bind, Arr.get, hdst]
          exact hfresh i

theorem resize_eq_reserve_witness :
    (⟨some ⟨[some 5, some 6, none]⟩, 1, 3⟩ : pvector Nat).resize
        (ArrayOps.slotwise Nat) 4 =
      some ⟨some ⟨[some 5, some 6, none, none]⟩, 1, 4⟩ ∧
    (⟨some ⟨[some 5, some 6, none, none]⟩, 1, 4⟩ : pvector Nat).slot 1 =
      (⟨some ⟨[some 5, some 6, none]⟩, 1, 3⟩ : pvector Nat).slot 1 ∧
    (⟨some ⟨[some 5, some 6, none, none]⟩, 1, 4⟩ : pvector Nat).index 3 = none :=
  have h := (resize_eq_reserve (ArrayOps.slotwise Nat)
    (⟨some ⟨[some 5, some 6, none]⟩, 1, 3⟩ : pvector Nat) 4).2.2.2
      (ArrayOps.slotwise_assignCopies Nat) _ rfl
  ⟨rfl, (h 1 (by decide)).elim id (fun hn => absurd hn (by decide)),
    (h 3 (by decide)).elim (fun hs => absurd hs (by decide)) id⟩

/-- C13: on a valid vector with `capacity() >= 1`, `clear()` gives `size() == 0`
with the same capacity and storage, and a following `push_back(v)` returns,
stores `v` at index `0` and gives `size() == 1` with the capacity unchanged. -/
theorem clear_then_push_back (ops : ArrayOps T) (s : pvector T) (v : T)
    (h : s.Valid) (hc : 1 ≤ s.capacity) :
    s.clear.size = 0 ∧ s.clear.capacity = s.capacity ∧ s.clear.arr_ = s.arr_ ∧
    ∃ s1, s.clear.push_back ops v = some s1 ∧ s1.index 0 = some v ∧
      s1.size = 1 ∧ s1.capacity = s.capacity := by
  obtain ⟨arr, e, c⟩ := s
  obtain ⟨_, hcap⟩ := h
  cases arr with
  | none =>
    simp only at hcap
    simp only [pvector.capacity] at hc
    omega
  | some a =>
    simp only at hcap
    simp only [pvector.capacity] at hc
    have hpos : 0 < a.count := by omega
    refine ⟨rfl, rfl, rfl, _, pvector.push_back_of_lt ops a 0 c v (by omega) hpos,
      ?_, ?_, rfl⟩
    · have hlen : 0 < a.slots.length := hpos
      simp [pvector.index, Arr.get, List.getElem?_set, hlen]
    · show (0 + 1) % SIZE_T_MOD = 1
      decide

theorem clear_then_push_back_witness :
    (⟨some ⟨[some 1, some 2, none]⟩, 2, 3⟩ : pvector Nat).Valid ∧
    ∃ s1, (⟨some ⟨[some 1, some 2, none]⟩, 2, 3⟩ : pvector Nat).clear.push_back
        (ArrayOps.slotwise Nat) 9 = some s1 ∧
      s1.index 0 = some 9 ∧ s1.size = 1 ∧ s1.capacity = 3 :=
  ⟨by decide,
    (clear_then_push_back (ArrayOps.slotwise Nat) _ 9 (by decide) (by decide)).2.2.2⟩

/-- C14: for every state and every `m <= capacity()`, `reserve(m)` returns and
changes nothing: the state after the call, with its capacity, size, storage and
every slot, is the state before it. -/
theorem reserve_noop (ops : ArrayOps T) (s : pvector T) (m : Nat)
    (h : m ≤ s.capacity) :
    ∃ s1, s.reserve ops m = some s1 ∧ s1.capacity = s.capacity ∧
      s1.size = s.size ∧ s1.arr_ = s.arr_ ∧ ∀ i, s1.slot i = s.slot i :=
  ⟨s, pvector.reserve_of_le ops s m h, rfl, rfl, rfl, fun _ => rfl⟩

theorem reserve_noop_witness :
    ∃ s1, (⟨some ⟨[some 1, some 2, none]⟩, 2, 3⟩ : pvector Nat).reserve
        (ArrayOps.slotwise Nat) 3 = some s1 ∧
      s1.capacity = 3 ∧ s1.size = 2 ∧ s1.arr_ = some ⟨[some 1, some 2, none]⟩ ∧
      ∀ i, s1.slot i = (⟨some ⟨[some 1, some 2, none]⟩, 2, 3⟩ : pvector Nat).slot i :=
  reserve_noop (ArrayOps.slotwise Nat) _ 3 (by decide)

/-- C15: `a.swap(b)` leaves `a` with the prior storage, size and capacity of `b`
and `b` with those of `a`; the two storages are exchanged as they are, so no
buffer is made and no element is written. -/
theorem swap_spec (a b : pvector T) :
    (a.swap b).1 = b ∧ (a.swap b).2 = a ∧
    (a.swap b).1.arr_ = b.arr_ ∧ (a.swap b).1.size = b.size ∧
    (a.swap b).1.capacity = b.capacity ∧
    (a.swap b).2.arr_ = a.arr_ ∧ (a.swap b).2.size = a.size ∧
    (a.swap b).2.capacity = a.capacity ∧
    (∀ i, (a.swap b).1.slot i = b.slot i) ∧ (∀ i, (a.swap b).2.slot i = a.slot i) :=
  ⟨rfl, rfl, rfl, rfl, rfl, rfl, rfl, rfl, fun _ => rfl, fun _ => rfl⟩

/-- C16: capacity never shrinks under the in-place operations: for every state,
`capacity()` after `reserve(n)`, `resize(n)`, `push_back(v)` or `fill(v)`,
whenever the call returns, and after `clear()` or `empty()`, is at least
`capacity()` before the call. -/
theorem capacity_never_shrinks (ops : ArrayOps T) (s : pvector T) (n : Nat) (v : T) :
    (∀ s1, s.reserve ops n = some s1 → s.capacity ≤ s1.capacity) ∧
    (∀ s1, s.resize ops n = some s1 → s.capacity ≤ s1.capacity) ∧
    (∀ s1, s.push_back ops v = some s1 → s.capacity ≤ s1.capacity) ∧
    (∀ s1, s.fill v = some s1 → s.capacity ≤ s1.capacity) ∧
    s.capacity ≤ s.clear.capacity ∧
    s.capacity ≤ s.empty.2.capacity :=
  ⟨fun _ h => (pvector.reserve_capacity_le h).1,
   fun _ h => (pvector.reserve_capacity_le (s := s) (n := n) h).1,
   fun _ h => pvector.push_back_capacity_le h,
   fun _ h => Nat.le_of_eq (pvector.fill_capacity h).1.symm,
   Nat.le_refl _, Nat.le_refl _⟩

theorem capacity_never_shrinks_witness :
    (pvector.new : pvector Nat).reserve (ArrayOps.slotwise Nat) 3 =
      some ⟨some ⟨[none, none, none]⟩, 0, 3⟩ ∧
    (pvector.new : pvector Nat).capacity ≤
      (⟨some ⟨[none, none, none]⟩, 0, 3⟩ : pvector Nat).capacity ∧
    (⟨some ⟨[some 4]⟩, 1, 1⟩ : pvector Nat).push_back (ArrayOps.slotwise Nat) 5 =
      some ⟨some ⟨[some 4, some 5]⟩, 2, 2⟩ ∧
    (⟨some ⟨[some 4]⟩, 1, 1⟩ : pvector Nat).capacity ≤
      (⟨some ⟨[some 4, some 5]⟩, 2, 2⟩ : pvector Nat).capacity :=
  ⟨rfl,
   (capacity_never_shrinks (ArrayOps.slotwise Nat) pvector.new 3 0).1 _ rfl,
   rfl,
   (capacity_never_shrinks (ArrayOps.slotwise Nat) ⟨some ⟨[some 4]⟩, 1, 1⟩ 0 5).2.2.1
     _ rfl⟩

end more_claims

/-! ## The claims on iterators, loop order and growth -/

section last_claims

variable {T : Type u}

/-- C17: for every state, `end() - begin() == size()`; `begin()` is the iterator
at slot `0` of the storage; `begin()` advanced by `i` refers to the element at
index `i`, and advanced by `size()` it is `end()`; the positions from `begin()`
up to `end()` are exactly the indices below `size()`. -/
theorem iterators_span_live_range (s : pvector T) :
    ArrayIter.distance s.end_ s.begin = (s.size : Int) ∧
    s.begin = ⟨s.arr_, 0⟩ ∧
    (∀ i, (s.begin.advance i).deref = s.index i) ∧
    s.begin.advance s.size = s.end_ ∧
    (∀ i, (s.begin.pos ≤ i ∧ i < s.end_.pos) ↔ i < s.size) := by
  refine ⟨?_, rfl, ?_, rfl, ?_⟩
  · simp [ArrayIter.distance, pvector.end_, pvector.begin, ArrayIter.advance,
      ArrayIter.at_start, pvector.size]
  · intro i
    simp [ArrayIter.deref, pvector.begin, ArrayIter.advance, ArrayIter.at_start,
      pvector.index]
  · intro i
    simp [pvector.end_, pvector.begin, ArrayIter.advance, ArrayIter.at_start,
      pvector.size]

/-- C19, the code at `k = 3`: three `push_back` calls on a default-constructed
vector have no resulting state, hence no `capacity()`, whatever the pushed values
and whatever the assignment of `Array<T_>` objects does: the third call grows a
vector of two live elements through `reserve(4)`. -/
theorem three_pushes_no_capacity (ops : ArrayOps T) (x y z : T) :
    ∀ s : pvector T, pvector.push_all ops pvector.new [x, y, z] ≠ some s := by
  intro s h
  rw [pvector.push_all_three_undefined ops x y z] at h
  exact absurd h (by simp)

/-- C20: with `size_t` arithmetic modulo `2 ^ 64`, for every state with
`size() <= capacity()`, non-null storage whenever `capacity() > 0`, and
`capacity() * 2 < 2 ^ 64`: `push_back` writes at the index `size()` of the state
its growth step yields; in every state the growth step yields, that index is the
old size, it is strictly less than `capacity()`, and the storage is not null; and
the growth step yields a state when `size() < capacity()` or `capacity() == 0`. -/
theorem push_back_write_in_bounds (ops : ArrayOps T) (s : pvector T) (v : T)
    (h1 : s.size ≤ s.capacity) (h2 : 0 < s.capacity → s.arr_ ≠ none)
    (h3 : s.capacity * 2 < SIZE_T_MOD) :
    s.push_back ops v = (s.grow ops).bind (fun g =>
      (g.store g.size v).map (fun s2 =>
        ⟨s2.arr_, (s2.elements_ + 1) % SIZE_T_MOD, s2.capacity_⟩)) ∧
    (∀ g, s.grow ops = some g →
      g.size = s.size ∧ g.size < g.capacity ∧ g.arr_ ≠ none) ∧
    (s.size < s.capacity ∨ s.capacity = 0 → ∃ g, s.grow ops = some g) := by
  refine ⟨rfl, ?_, ?_⟩
  · intro g hg
    unfold pvector.grow at hg
    by_cases hfull : s.size = s.capacity
    · simp only [hfull, if_true] at hg
      have hgt : s.capacity <
          (if s.capacity = 0 then 1
            else (s.capacity * pvector.growth_factor) % SIZE_T_MOD) := by
        by_cases h0 : s.capacity = 0
        · simp [h0]
        · simp only [h0, if_false, pvector.growth_factor, Nat.mod_eq_of_lt h3]
          omega
      obtain ⟨hc, he, a, ha⟩ := pvector.reserve_of_gt hgt hg
      refine ⟨he, ?_, by simp [ha]⟩
      show g.elements_ < g.capacity_
      rw [he, hc]
      have : s.elements_ = s.capacity := hfull
      omega
    · simp only [hfull, if_false, Option.some.injEq] at hg
      subst hg
      have hlt : s.size < s.capacity := Nat.lt_of_le_of_ne h1 hfull
      exact ⟨rfl, hlt, h2 (by omega)⟩
  · intro hcase
    rcases hcase with hlt | h0
    · exact ⟨s, pvector.grow_of_lt ops s hlt⟩
    · obtain ⟨arr, e, c⟩ := s
      simp only [pvector.capacity] at h0
      simp only [pvector.size, pvector.capacity] at h1
      subst h0
      have he : e = 0 := Nat.le_zero.mp h1
      subst he
      exact ⟨⟨some (Arr.alloc 1), 0, 1⟩, rfl⟩

theorem push_back_write_in_bounds_witness :
    (⟨some ⟨[some 5]⟩, 1, 1⟩ : pvector Nat).grow (ArrayOps.slotwise Nat) =
      some ⟨some ⟨[some 5, none]⟩, 1, 2⟩ ∧
    (⟨some ⟨[some 5, none]⟩, 1, 2⟩ : pvector Nat).size = 1 ∧
    (⟨some ⟨[some 5, none]⟩, 1, 2⟩ : pvector Nat).size <
      (⟨some ⟨[some 5, none]⟩, 1, 2⟩ : pvector Nat).capacity ∧
    (⟨some ⟨[some 5, none]⟩, 1, 2⟩ : pvector Nat).arr_ ≠ none :=
  ⟨rfl,
    (push_back_write_in_bounds (ArrayOps.slotwise Nat) ⟨some ⟨[some 5]⟩, 1, 1⟩ 6
      (by decide) (by decide) (by decide)).2.1 _ rfl⟩

end last_claims
